import Mathlib

/-!
Verification development for the Sift dataset-construction and held-out
evaluation subsystem (`src/model_trainer.py`, `src/session_manager.py`,
`train.py`).

The Python code is shallowly embedded: pure functions become Lean
functions, Python `float` fractions and scores are modelled as exact
rationals, machine integers inside the Mersenne-Twister generator are
`Nat` values reduced modulo `2^32`, and Python dictionaries are modelled
as insertion-ordered association lists.  `random.Random(seed)` and its
`shuffle` method (CPython's MT19937 generator with the Fisher-Yates
loop of `random.shuffle`) are embedded concretely so that
`split_held_out` is a fully executable deterministic function of its
arguments.
-/

/-! ### Text normalization (`_normalize_text`, model_trainer.py lines 27-29) -/

/-- Python `str.split()` with no separator: split on whitespace runs,
dropping empty pieces. -/
def pySplitWs (s : String) : List String :=
  (s.split Char.isWhitespace).filter (fun w => w ≠ "")

/-- `_normalize_text`: `" ".join(text.lower().split())`. -/
def _normalize_text (text : String) : String :=
  String.intercalate " " (pySplitWs text.toLower)

/-! ### Python `round` (banker's rounding, round-half-to-even) -/

/-- Python's built-in `round` on an exact rational: round to the nearest
integer, ties to the even integer. -/
def pyRound (q : ℚ) : ℤ :=
  if q - ⌊q⌋ < 1/2 then ⌊q⌋
  else if 1/2 < q - ⌊q⌋ then ⌊q⌋ + 1
  else if ⌊q⌋ % 2 = 0 then ⌊q⌋ else ⌊q⌋ + 1

/-! ### CPython's Mersenne Twister (`_random.Random`)

State and algorithms follow CPython's `_randommodule.c`: `init_genrand`,
`init_by_array` (seeding with the 32-bit little-endian chunks of the
integer seed), the MT19937 twist, tempering, `getrandbits`, and
`_randbelow_with_getrandbits`.  All words are `Nat` values `< 2^32`.
-/

def mtWordMod : Nat := 4294967296

/-- Read word `i` of the state list (0 when out of range). -/
def getNth (l : List Nat) (i : Nat) : Nat := l.getD i 0

/-- Tail of `init_genrand`: words 1..623, each derived from the previous. -/
def mtInitTail (prev i : Nat) : Nat → List Nat
  | 0 => []
  | k+1 =>
    let v := (1812433253 * (prev ^^^ (prev >>> 30)) + i) % mtWordMod
    v :: mtInitTail v (i+1) k

/-- `init_genrand(s)`: the 624-word state seeded from a single word. -/
def mtInitGenrand (s : Nat) : List Nat :=
  (s % mtWordMod) :: mtInitTail (s % mtWordMod) 1 623

/-- Structural helper for `natChunks`: the first argument is fuel
(`n` itself always suffices since `n / 2^32 < n` for positive `n`). -/
def natChunksAux : Nat → Nat → List Nat
  | 0, _ => []
  | _+1, 0 => []
  | f+1, n+1 => ((n+1) % mtWordMod) :: natChunksAux f ((n+1) / mtWordMod)

/-- Split a nonnegative integer into 32-bit little-endian chunks
(CPython turns an int seed into this key array for `init_by_array`). -/
def natChunks (n : Nat) : List Nat := natChunksAux n n

/-- The `init_by_array` key for an integer seed (at least one word). -/
def seedKey (n : Nat) : List Nat := if n = 0 then [0] else natChunks n

/-- First mixing loop of `init_by_array`. -/
def ibaStep1 (key : List Nat) : Nat → List Nat × Nat × Nat → List Nat × Nat × Nat
  | 0, acc => acc
  | k+1, (mt, i, j) =>
    let prev := getNth mt (i-1)
    let v := (((getNth mt i) ^^^ ((prev ^^^ (prev >>> 30)) * 1664525)) + getNth key j + j) % mtWordMod
    let mt1 := mt.set i v
    let p := if i + 1 ≥ 624 then (mt1.set 0 (getNth mt1 623), 1) else (mt1, i+1)
    let j2 := if j + 1 ≥ key.length then 0 else j + 1
    ibaStep1 key k (p.1, p.2, j2)

/-- Second mixing loop of `init_by_array` (32-bit wraparound subtraction). -/
def ibaStep2 : Nat → List Nat × Nat → List Nat × Nat
  | 0, acc => acc
  | k+1, (mt, i) =>
    let prev := getNth mt (i-1)
    let x := (getNth mt i) ^^^ ((prev ^^^ (prev >>> 30)) * 1566083941)
    let v := (x % mtWordMod + mtWordMod - i) % mtWordMod
    let mt1 := mt.set i v
    let p := if i + 1 ≥ 624 then (mt1.set 0 (getNth mt1 623), 1) else (mt1, i+1)
    ibaStep2 k p

/-- `init_by_array(key)`. -/
def mtInitByArray (key : List Nat) : List Nat :=
  let mt0 := mtInitGenrand 19650218
  let r1 := ibaStep1 key (max 624 key.length) (mt0, 1, 0)
  let r2 := ibaStep2 623 (r1.1, r1.2.1)
  r2.1.set 0 2147483648

/-- Generator state: the 624 words plus the output index. -/
structure MTState where
  mt : List Nat
  idx : Nat
deriving Repr, DecidableEq

/-- `random.Random(seed)` for a nonnegative integer seed: seed via
`init_by_array`, next output regenerates the state block. -/
def mtFromSeed (seed : Nat) : MTState :=
  ⟨mtInitByArray (seedKey seed), 624⟩

/-- One step of the MT19937 twist, updating word `kk` in place. -/
def mtTwistLoop : Nat → Nat → List Nat → List Nat
  | _, 0, mt => mt
  | kk, f+1, mt =>
    let y := ((getNth mt kk) &&& 2147483648) ||| ((getNth mt ((kk+1) % 624)) &&& 2147483647)
    let v := (getNth mt ((kk + 397) % 624)) ^^^ (y >>> 1) ^^^ (if y % 2 = 1 then 2567483615 else 0)
    mtTwistLoop (kk+1) f (mt.set kk v)

/-- `genrand_uint32`: twist when the block is exhausted, then temper. -/
def mtGen (st : MTState) : Nat × MTState :=
  let st1 := if st.idx ≥ 624 then MTState.mk (mtTwistLoop 0 624 st.mt) 0 else st
  let y0 := getNth st1.mt st1.idx
  let y1 := y0 ^^^ (y0 >>> 11)
  let y2 := y1 ^^^ ((y1 <<< 7) &&& 2636928640)
  let y3 := y2 ^^^ ((y2 <<< 15) &&& 4022730752)
  let y4 := y3 ^^^ (y3 >>> 18)
  (y4, ⟨st1.mt, st1.idx + 1⟩)

/-- `getrandbits(k)` for `0 < k ≤ 32`: the top `k` bits of one output. -/
def getrandbits (k : Nat) (st : MTState) : Nat × MTState :=
  let p := mtGen st
  (p.1 >>> (32 - k), p.2)

/-- Rejection loop of `_randbelow_with_getrandbits`; the unbounded
`while` is given a large fuel, returning 0 at exhaustion. -/
def randbelowAux (n k : Nat) : Nat → MTState → Nat × MTState
  | 0, st => (0, st)
  | f+1, st =>
    let p := getrandbits k st
    if p.1 < n then p else randbelowAux n k f p.2

/-- `_randbelow(n)`: draw `n.bit_length()`-bit values until one is `< n`. -/
def randbelow (n : Nat) (st : MTState) : Nat × MTState :=
  randbelowAux n (Nat.size n) 64 st

/-- Swap two positions of a list (no-op when either is out of range). -/
def listSwap (l : List α) (i j : Nat) : List α :=
  match l.get? i, l.get? j with
  | some a, some b => (l.set i b).set j a
  | _, _ => l

/-- The Fisher-Yates loop of `random.shuffle`: for `i` from `len-1`
down to `1`, swap `x[i]` with `x[randbelow(i+1)]`. -/
def shuffleGo : MTState → List α → Nat → List α × MTState
  | st, l, 0 => (l, st)
  | st, l, i+1 =>
    let p := randbelow (i+2) st
    shuffleGo p.2 (listSwap l (i+1) p.1) i

/-- `rng.shuffle(x)` returning the shuffled list and advanced state. -/
def pyShuffle (st : MTState) (l : List α) : List α × MTState :=
  shuffleGo st l (l.length - 1)

/-! ### Data model (model_trainer.py lines 15-24)

A triplet row `t : list[str]` is accessed only at `t[0]`, `t[1]`, `t[2]`
(anchor, positive, negative), so it is embedded as a three-field record.
-/

structure Triplet where
  anchor : String
  positive : String
  negative : String
deriving Repr, DecidableEq

structure HeldOutItem where
  text : String
  is_positive : Bool
  baseline_score : ℚ := 0
deriving Repr, DecidableEq

structure AnchorHeldOutGroup where
  anchor : String
  items : List HeldOutItem := []
deriving Repr, DecidableEq

/-! ### `split_held_out` (model_trainer.py lines 32-88) -/

/-- Deduplicate a list keeping the first occurrence of each element and
skipping elements of `seen`; `firstSeen` models the key order of a
Python dict built by insertion. -/
def firstSeenFrom (seen : List String) : List String → List String
  | [] => []
  | a :: rest =>
    if a ∈ seen then firstSeenFrom seen rest
    else a :: firstSeenFrom (a :: seen) rest

def firstSeen (l : List String) : List String := firstSeenFrom [] l

/-- `by_anchor`: the insertion-ordered `defaultdict(list)` mapping each
anchor (in first-seen order) to its rows (in original order). -/
def byAnchor (ts : List Triplet) : List (String × List Triplet) :=
  (firstSeen (ts.map Triplet.anchor)).map
    (fun a => (a, ts.filter (fun t => t.anchor = a)))

/-- `n_held = max(1, round(len(rows) * fraction))`. -/
def heldCount (n : Nat) (fraction : ℚ) : Nat :=
  (max 1 (pyRound (n * fraction))).toNat

/-- The set of normalized positive/negative texts of the training rows
of one anchor (a Python `set`, modelled by a list used only through
membership). -/
def trainNorms (rows : List Triplet) : List String :=
  rows.flatMap (fun row => [_normalize_text row.positive, _normalize_text row.negative])

/-- The held-out candidate texts of the held rows, tagged with polarity,
in row order: `(row[1], True), (row[2], False)` per row. -/
def candidateTexts (held : List Triplet) : List (String × Bool) :=
  held.flatMap (fun row => [(row.positive, true), (row.negative, false)])

/-- The inner collection loop: keep a candidate unless its normalized
text was already accepted (`seen`) or appears among the training
norms. -/
def collectHeldItems : List (String × Bool) → List String → List String → List HeldOutItem
  | [], _, _ => []
  | (t, b) :: rest, tn, seen =>
    let n := _normalize_text t
    if n ∈ seen ∨ n ∈ tn then collectHeldItems rest tn seen
    else ⟨t, b, 0⟩ :: collectHeldItems rest tn (n :: seen)

/-- Per-anchor body of the `for anchor, rows in by_anchor.items()` loop:
returns (training rows, held-out items, advanced rng state).  Anchors
below the threshold skip the shuffle (`continue`), leaving the rng
untouched. -/
def processAnchor (fraction : ℚ) (m : Nat) (st : MTState) (rows : List Triplet) :
    List Triplet × List HeldOutItem × MTState :=
  if rows.length < m then (rows, [], st)
  else
    let p := pyShuffle st rows
    let nh := heldCount rows.length fraction
    let heldRows := p.1.take nh
    let trainPart := p.1.drop nh
    let items := collectHeldItems (candidateTexts heldRows) (trainNorms trainPart) []
    (trainPart, items, p.2)

/-- The anchor loop, threading the rng state in anchor order; a group is
appended only when its item list is non-empty. -/
def splitLoop (fraction : ℚ) (m : Nat) :
    MTState → List (String × List Triplet) → List Triplet × List AnchorHeldOutGroup
  | _, [] => ([], [])
  | st, (a, rows) :: rest =>
    let r := processAnchor fraction m st rows
    let rec0 := splitLoop fraction m r.2.2 rest
    (r.1 ++ rec0.1, if r.2.1 = [] then rec0.2 else ⟨a, r.2.1⟩ :: rec0.2)

/-- `split_held_out(triplets, fraction, min_anchor_triplets, seed)`. -/
def split_held_out (triplets : List Triplet) (fraction : ℚ)
    (min_anchor_triplets : Nat) (seed : Nat) :
    List Triplet × List AnchorHeldOutGroup :=
  if fraction = 0 then (triplets, [])
  else splitLoop fraction min_anchor_triplets (mtFromSeed seed) (byAnchor triplets)

/-! ### Scoring (`score_held_out_items`, model_trainer.py lines 93-106)

The external embedding model and cosine similarity (`model.encode` +
`util.cos_sim`) are abstracted as a function `sim : anchor → text → ℚ`;
the Python float scores become exact rationals.  The result dict is an
insertion-ordered association list with Python `dict` update semantics.
-/

/-- `d[k] = v` on an insertion-ordered dict: replace in place if the key
exists, else append. -/
def dictInsert (d : List (String × α)) (k : String) (v : α) : List (String × α) :=
  match d with
  | [] => [(k, v)]
  | (k1, v1) :: rest =>
    if k1 = k then (k, v) :: rest else (k1, v1) :: dictInsert rest k v

/-- `d[k]` with a default for absent keys. -/
def dictGetD (d : List (String × α)) (k : String) (dflt : α) : α :=
  match d with
  | [] => dflt
  | (k1, v1) :: rest => if k1 = k then v1 else dictGetD rest k dflt

/-- The per-group score list: each item's text scored against the
group's anchor, preserving item order. -/
def scoreGroup (sim : String → String → ℚ) (g : AnchorHeldOutGroup) : List ℚ :=
  g.items.map (fun it => sim g.anchor it.text)

/-- `score_held_out_items`: `results[g.anchor] = sims` for each group in
order. -/
def score_held_out_items (sim : String → String → ℚ)
    (groups : List AnchorHeldOutGroup) : List (String × List ℚ) :=
  groups.foldl (fun results g => dictInsert results g.anchor (scoreGroup sim g)) []

/-! ### Per-group aggregates of `format_taste_table`
(model_trainer.py lines 120-136) -/

/-- `pos_scores`: scores of positive items from `zip(g.items, s)`. -/
def posScores (items : List HeldOutItem) (s : List ℚ) : List ℚ :=
  ((items.zip s).filter (fun p => p.1.is_positive)).map Prod.snd

/-- `neg_scores`: scores of negative items from `zip(g.items, s)`. -/
def negScores (items : List HeldOutItem) (s : List ℚ) : List ℚ :=
  ((items.zip s).filter (fun p => !p.1.is_positive)).map Prod.snd

/-- `sum(l)/len(l) if l else 0`. -/
def avgScores (l : List ℚ) : ℚ :=
  if l = [] then 0 else l.sum / l.length

/-- `n_correct = sum(1 for ps in pos_scores for ns in neg_scores if ps > ns)`. -/
def pairCorrect (ps ns : List ℚ) : Nat :=
  (ps.flatMap (fun p => ns.filter (fun n => n < p))).length

/-- `pair_pct = (n_correct / n_pairs * 100) if n_pairs else 0`. -/
def pairAccuracy (ps ns : List ℚ) : ℚ :=
  let n_pairs := ps.length * ns.length
  if n_pairs = 0 then 0 else (pairCorrect ps ns : ℚ) / (n_pairs : ℚ) * 100

/-- The aggregate line of one group of the taste table:
`(avg_p, avg_n, gap, pair_pct)`. -/
def tasteAggregates (items : List HeldOutItem) (s : List ℚ) : ℚ × ℚ × ℚ × ℚ :=
  let ps := posScores items s
  let ns := negScores items s
  (avgScores ps, avgScores ns, avgScores ps - avgScores ns, pairAccuracy ps ns)

/-! ### `TasteTracker` (model_trainer.py lines 306-338)

The tracker's `model` and `task_name` fields live inside the abstract
`sim` function passed to each transition; printing is a side effect with
no bearing on state.
-/

structure TasteTracker where
  groups : List AnchorHeldOutGroup
  final_scores : List (String × List ℚ) := []
deriving Repr, DecidableEq

/-- In-place `item.baseline_score = s` over `zip(g.items, scores)`:
items beyond the score list keep their old baseline. -/
def setBaselines : List HeldOutItem → List ℚ → List HeldOutItem
  | items, [] => items
  | [], _ => []
  | it :: its, s :: ss => { it with baseline_score := s } :: setBaselines its ss

/-- `on_train_begin`: score all groups and write every item's
`baseline_score` from this snapshot. -/
def on_train_begin (sim : String → String → ℚ) (tr : TasteTracker) : TasteTracker :=
  let scores := score_held_out_items sim tr.groups
  { tr with groups := tr.groups.map (fun g =>
      { g with items := setBaselines g.items (dictGetD scores g.anchor []) }) }

/-- `on_epoch_end`: score again and overwrite `final_scores`;
`baseline_score` and the groups are untouched. -/
def on_epoch_end (sim : String → String → ℚ) (tr : TasteTracker) : TasteTracker :=
  { tr with final_scores := score_held_out_items sim tr.groups }

/-! ### CSV import (session_manager.py lines 107-131)

File handling is abstracted into the inputs: `has_path` is the truthiness
of `file_path`, `file_ok` is whether `open` succeeds, `rows` are the rows
yielded by `csv.reader`, and `read_error` stands for an exception raised
while iterating the reader (caught by the outer `except`).  The state
`prev` is `self.imported_dataset` before the call; the result pairs the
state after the call with the returned message.
-/

/-- The data rows the import loop consumes: the first row is dropped
when it is non-empty and its first field, lowercased and trimmed, equals
"anchor" (the header heuristic); otherwise `f.seek(0)` makes the loop
reprocess every row. -/
def importBody (rows : List (List String)) : List (List String) :=
  match rows with
  | [] => []
  | header :: rest =>
    if header ≠ [] ∧ (header.headD "").toLower.trim = "anchor" then rest
    else header :: rest

/-- The dataset the import loop accumulates: rows with exactly three
fields, each field stripped. -/
def importParsed (rows : List (List String)) : List (List String) :=
  ((importBody rows).filter (fun row => row.length = 3)).map
    (fun row => row.map String.trim)

def import_additional_dataset (prev : List (List String))
    (has_path file_ok : Bool) (rows : List (List String)) (read_error : Bool) :
    List (List String) × String :=
  if !has_path then (prev, "Please upload a CSV file.")
  else if !file_ok then (prev, "Import failed: could not open file")
  else
    match rows with
    | [] => (prev, "Error: Uploaded file is empty.")
    | header :: rest =>
      if read_error then (prev, "Import failed: error while reading")
      else if (importParsed (header :: rest)).length = 0 then
        (prev, "Import failed: No valid rows found.")
      else (importParsed (header :: rest),
        s!"Imported {(importParsed (header :: rest)).length} triplets.")

/-! ### `load_csv` (train.py lines 25-56), abstracted over the rows
yielded by `csv.reader`. -/

/-- `maybe_append_triplet`: rows with at least three fields whose first
three trimmed fields are all non-empty contribute one triplet. -/
def maybe_append_triplet (row : List String) : List Triplet :=
  if row.length < 3 then []
  else if (row.getD 0 "").trim ≠ "" ∧ (row.getD 1 "").trim ≠ "" ∧ (row.getD 2 "").trim ≠ ""
  then [⟨(row.getD 0 "").trim, (row.getD 1 "").trim, (row.getD 2 "").trim⟩]
  else []

def load_csv (rows : List (List String)) : List Triplet :=
  match rows with
  | [] => []
  | first_row :: rest =>
    let is_header :=
      first_row.length ≥ 3
      ∧ (first_row.getD 0 "").trim.toLower = "anchor"
      ∧ (first_row.getD 1 "").trim.toLower = "positive"
      ∧ (first_row.getD 2 "").trim.toLower = "negative"
    (if is_header then [] else maybe_append_triplet first_row)
      ++ rest.flatMap maybe_append_triplet

/-! ### `_create_hn_dataset` (session_manager.py lines 182-211) -/

/-- The first `n` values of `itertools.cycle(l)` (meaningful only for
non-empty `l`, the only way the source uses it). -/
def cycleTake (l : List String) (n : Nat) : List String :=
  (List.range n).map (fun i => l.getD (i % l.length) "")

/-- Triplets from Favorite/Dislike indices into `titles`: iterate the
longer polarity in order, cycling the shorter one. -/
def _create_hn_dataset (titles : List String) (query_anchor : String)
    (pos_ids neg_ids : List Nat) : List Triplet :=
  if pos_ids = [] ∨ neg_ids = [] then []
  else
    let pos_titles := pos_ids.map (fun i => titles.getD i "")
    let neg_titles := neg_ids.map (fun i => titles.getD i "")
    if neg_titles.length ≤ pos_titles.length then
      (pos_titles.zip (cycleTake neg_titles pos_titles.length)).map
        (fun p => ⟨query_anchor, p.1, p.2⟩)
    else
      ((cycleTake pos_titles neg_titles.length).zip neg_titles).map
        (fun p => ⟨query_anchor, p.1, p.2⟩)

/-! ## Helper lemmas -/

theorem randbelowAux_lt {n k : Nat} (hn : 0 < n) :
    ∀ (fuel : Nat) (st : MTState), (randbelowAux n k fuel st).1 < n := by
  intro fuel
  induction fuel with
  | zero => intro st; simpa [randbelowAux] using hn
  | succ f ih =>
    intro st
    simp only [randbelowAux]
    split
    · assumption
    · exact ih _

theorem randbelow_lt {n : Nat} (hn : 0 < n) (st : MTState) :
    (randbelow n st).1 < n :=
  randbelowAux_lt hn 64 st

theorem listSwap_length (l : List α) (i j : Nat) :
    (listSwap l i j).length = l.length := by
  unfold listSwap
  split <;> simp

theorem listSwap_perm [DecidableEq α] (l : List α) (i j : Nat) :
    List.Perm (listSwap l i j) l := by
  unfold listSwap
  split
  case h_2 => exact List.Perm.refl l
  case h_1 a b hga hgb =>
    obtain ⟨hi, hgeti⟩ := List.get?_eq_some.mp hga
    obtain ⟨hj, hgetj⟩ := List.get?_eq_some.mp hgb
    have ha : l[i] = a := by simpa using hgeti
    have hb : l[j] = b := by simpa using hgetj
    rw [List.perm_iff_count]
    intro c
    have hj2 : j < (l.set i b).length := by simpa using hj
    rw [List.count_set a c _ j hj2, List.count_set b c l i hi]
    have hmem : a ∈ l := ha ▸ l.getElem_mem hi
    have hA : a = c → 1 ≤ List.count c l := by
      intro h1
      subst h1
      exact List.count_pos_iff.mpr hmem
    rw [ha]
    rcases eq_or_ne i j with rfl | hne
    · simp only [List.getElem_set_self, List.length_set, hi]
      by_cases h1 : a = c
      · have h1c := hA h1
        by_cases h2 : b = c <;> simp [h1, h2] <;> omega
      · by_cases h2 : b = c <;> simp [h1, h2]
    · simp only [List.getElem_set_ne hne, List.length_set, hj, hb]
      by_cases h1 : a = c
      · have h1c := hA h1
        by_cases h2 : b = c <;> simp [h1, h2] <;> omega
      · by_cases h2 : b = c <;> simp [h1, h2]

theorem shuffleGo_perm [DecidableEq α] :
    ∀ (n : Nat) (st : MTState) (l : List α), n < l.length →
      List.Perm (shuffleGo st l n).1 l := by
  intro n
  induction n with
  | zero => intro st l _; exact List.Perm.refl l
  | succ i ih =>
    intro st l h
    simp only [shuffleGo]
    have hlen : i < (listSwap l (i+1) ((randbelow (i+2) st).1)).length := by
      rw [listSwap_length]; omega
    exact (ih _ _ hlen).trans (listSwap_perm _ _ _)

theorem pyShuffle_perm [DecidableEq α] (st : MTState) (l : List α) :
    List.Perm (pyShuffle st l).1 l := by
  unfold pyShuffle
  rcases l with _ | ⟨x, xs⟩
  · exact List.Perm.refl _
  · exact shuffleGo_perm _ _ _ (by simp)

theorem pyShuffle_length [DecidableEq α] (st : MTState) (l : List α) :
    (pyShuffle st l).1.length = l.length :=
  (pyShuffle_perm st l).length_eq

theorem pyShuffle_mem [DecidableEq α] {st : MTState} {l : List α} {x : α}
    (h : x ∈ (pyShuffle st l).1) : x ∈ l :=
  (pyShuffle_perm st l).mem_iff.mp h

theorem firstSeenFrom_mem {seen : List String} :
    ∀ {l : List String} {x : String}, x ∈ firstSeenFrom seen l → x ∈ l ∧ x ∉ seen := by
  intro l
  induction l generalizing seen with
  | nil => intro x h; simp [firstSeenFrom] at h
  | cons a rest ih =>
    intro x h
    simp only [firstSeenFrom] at h
    split at h
    · have := ih h
      exact ⟨List.mem_cons_of_mem _ this.1, this.2⟩
    · rcases List.mem_cons.mp h with rfl | h2
      · exact ⟨List.mem_cons_self _ _, by assumption⟩
      · have := ih h2
        have h3 := this.2
        simp only [List.mem_cons, not_or] at h3
        exact ⟨List.mem_cons_of_mem _ this.1, h3.2⟩

theorem firstSeenFrom_nodup :
    ∀ (l : List String) (seen : List String), (firstSeenFrom seen l).Nodup := by
  intro l
  induction l with
  | nil => intro seen; simp [firstSeenFrom]
  | cons a rest ih =>
    intro seen
    simp only [firstSeenFrom]
    split
    · exact ih seen
    · refine List.nodup_cons.mpr ⟨fun hmem => ?_, ih (a :: seen)⟩
      exact (firstSeenFrom_mem hmem).2 (List.mem_cons_self _ _)

theorem collectHeldItems_map_norm :
    ∀ (cands : List (String × Bool)) (tn seen : List String),
      (collectHeldItems cands tn seen).map (fun it => _normalize_text it.text) =
        firstSeenFrom seen
          ((cands.map (fun c => _normalize_text c.1)).filter (fun n => !(decide (n ∈ tn)))) := by
  intro cands
  induction cands with
  | nil => intro tn seen; simp [collectHeldItems, firstSeenFrom]
  | cons c rest ih =>
    intro tn seen
    obtain ⟨t, b⟩ := c
    simp only [collectHeldItems, List.map_cons, List.filter_cons]
    by_cases htn : _normalize_text t ∈ tn <;> by_cases hseen : _normalize_text t ∈ seen <;>
      simp [htn, hseen, firstSeenFrom, ih]

theorem collectHeldItems_not_in_tn :
    ∀ (cands : List (String × Bool)) (tn seen : List String) (it : HeldOutItem),
      it ∈ collectHeldItems cands tn seen → _normalize_text it.text ∉ tn := by
  intro cands
  induction cands with
  | nil => intro tn seen it h; simp [collectHeldItems] at h
  | cons c rest ih =>
    intro tn seen it h
    obtain ⟨t, b⟩ := c
    simp only [collectHeldItems] at h
    split at h
    · exact ih _ _ _ h
    · rcases List.mem_cons.mp h with rfl | h2
      · next hcond =>
        simp only [not_or] at hcond
        exact hcond.2
      · exact ih _ _ _ h2

theorem trainNorms_mem {row : Triplet} {rows : List Triplet} (h : row ∈ rows) :
    _normalize_text row.positive ∈ trainNorms rows ∧
    _normalize_text row.negative ∈ trainNorms rows := by
  constructor <;> exact List.mem_flatMap.mpr ⟨row, h, by simp⟩

theorem processAnchor_train_sub {f : ℚ} {m : Nat} {st : MTState} {rows : List Triplet}
    {row : Triplet} (h : row ∈ (processAnchor f m st rows).1) : row ∈ rows := by
  unfold processAnchor at h
  split at h
  · exact h
  · exact pyShuffle_mem (List.mem_of_mem_drop h)

theorem processAnchor_leak {f : ℚ} {m : Nat} {st : MTState} {rows : List Triplet}
    {it : HeldOutItem} {row : Triplet}
    (hit : it ∈ (processAnchor f m st rows).2.1)
    (hrow : row ∈ (processAnchor f m st rows).1) :
    _normalize_text it.text ≠ _normalize_text row.positive ∧
    _normalize_text it.text ≠ _normalize_text row.negative := by
  by_cases hm : rows.length < m
  · simp [processAnchor, hm] at hit
  · simp only [processAnchor, if_neg hm] at hit hrow
    have hnotin := collectHeldItems_not_in_tn _ _ _ _ hit
    have hmem := trainNorms_mem hrow
    constructor
    · intro heq; exact hnotin (heq ▸ hmem.1)
    · intro heq; exact hnotin (heq ▸ hmem.2)

theorem processAnchor_items_shape {f : ℚ} {m : Nat} {st : MTState} {rows : List Triplet}
    (h : (processAnchor f m st rows).2.1 ≠ []) :
    ∃ cands tn, (processAnchor f m st rows).2.1 = collectHeldItems cands tn [] := by
  by_cases hm : rows.length < m
  · simp [processAnchor, hm] at h
  · simp only [processAnchor, if_neg hm]
    exact ⟨_, _, rfl⟩

theorem splitLoop_train_rows {f : ℚ} {m : Nat} :
    ∀ (ba : List (String × List Triplet)) (st : MTState) (row : Triplet),
      row ∈ (splitLoop f m st ba).1 → ∃ p ∈ ba, row ∈ p.2 := by
  intro ba
  induction ba with
  | nil => intro st row h; simp [splitLoop] at h
  | cons p rest ih =>
    intro st row h
    obtain ⟨a, rows⟩ := p
    simp only [splitLoop, List.mem_append] at h
    rcases h with h | h
    · exact ⟨(a, rows), List.mem_cons_self _ _, processAnchor_train_sub h⟩
    · obtain ⟨q, hq, hrow⟩ := ih _ _ h
      exact ⟨q, List.mem_cons_of_mem _ hq, hrow⟩

theorem splitLoop_group_anchors {f : ℚ} {m : Nat} :
    ∀ (ba : List (String × List Triplet)) (st : MTState),
      List.Sublist ((splitLoop f m st ba).2.map AnchorHeldOutGroup.anchor)
        (ba.map Prod.fst) := by
  intro ba
  induction ba with
  | nil => intro st; simp [splitLoop]
  | cons p rest ih =>
    intro st
    obtain ⟨a, rows⟩ := p
    simp only [splitLoop, List.map_cons]
    split
    · exact (ih _).cons a
    · simpa using (ih _).cons₂ a

theorem splitLoop_groups_nonempty {f : ℚ} {m : Nat} :
    ∀ (ba : List (String × List Triplet)) (st : MTState) (g : AnchorHeldOutGroup),
      g ∈ (splitLoop f m st ba).2 → g.items ≠ [] := by
  intro ba
  induction ba with
  | nil => intro st g h; simp [splitLoop] at h
  | cons p rest ih =>
    intro st g h
    obtain ⟨a, rows⟩ := p
    simp only [splitLoop] at h
    split at h
    · exact ih _ _ h
    · rcases List.mem_cons.mp h with rfl | h2
      · next hne => exact hne
      · exact ih _ _ h2

theorem splitLoop_group_items {f : ℚ} {m : Nat} :
    ∀ (ba : List (String × List Triplet)) (st : MTState) (g : AnchorHeldOutGroup),
      g ∈ (splitLoop f m st ba).2 →
      ∃ cands tn, g.items = collectHeldItems cands tn [] := by
  intro ba
  induction ba with
  | nil => intro st g h; simp [splitLoop] at h
  | cons p rest ih =>
    intro st g h
    obtain ⟨a, rows⟩ := p
    simp only [splitLoop] at h
    split at h
    · exact ih _ _ h
    · rcases List.mem_cons.mp h with rfl | h2
      · next hne => exact processAnchor_items_shape hne
      · exact ih _ _ h2

theorem splitLoop_leakfree {f : ℚ} {m : Nat} :
    ∀ (ba : List (String × List Triplet)) (st : MTState),
      (ba.map Prod.fst).Nodup →
      (∀ p ∈ ba, ∀ r ∈ p.2, r.anchor = p.1) →
      ∀ g ∈ (splitLoop f m st ba).2, ∀ it ∈ g.items,
        ∀ row ∈ (splitLoop f m st ba).1, row.anchor = g.anchor →
          _normalize_text it.text ≠ _normalize_text row.positive ∧
          _normalize_text it.text ≠ _normalize_text row.negative := by
  intro ba
  induction ba with
  | nil => intro st _ _ g hg; simp [splitLoop] at hg
  | cons p rest ih =>
    intro st hnodup htag g hg it hit row hrow hanch
    obtain ⟨a, rows⟩ := p
    have hmapnodup : (a :: rest.map Prod.fst).Nodup := by simpa using hnodup
    have hnotin : a ∉ rest.map Prod.fst := (List.nodup_cons.mp hmapnodup).1
    have hrestnodup : (rest.map Prod.fst).Nodup := (List.nodup_cons.mp hmapnodup).2
    have hresttag : ∀ p ∈ rest, ∀ r ∈ p.2, r.anchor = p.1 :=
      fun q hq => htag q (List.mem_cons_of_mem _ hq)
    have hatag : ∀ r ∈ rows, r.anchor = a :=
      fun r hr => htag (a, rows) (List.mem_cons_self _ _) r hr
    -- anchors of groups of the recursive call lie in the keys of `rest`
    have hrec_anchor : ∀ g2 ∈ (splitLoop f m (processAnchor f m st rows).2.2 rest).2,
        g2.anchor ∈ rest.map Prod.fst := by
      intro g2 hg2
      exact (splitLoop_group_anchors rest _).mem
        (List.mem_map_of_mem AnchorHeldOutGroup.anchor hg2)
    have hrec_train : ∀ r2 ∈ (splitLoop f m (processAnchor f m st rows).2.2 rest).1,
        r2.anchor ∈ rest.map Prod.fst := by
      intro r2 hr2
      obtain ⟨q, hq, hrq⟩ := splitLoop_train_rows rest _ r2 hr2
      rw [hresttag q hq r2 hrq]
      exact List.mem_map_of_mem Prod.fst hq
    simp only [splitLoop, List.mem_append] at hg hrow
    split at hg
    · -- no group emitted for this anchor
      rcases hrow with hrow | hrow
      · exfalso
        have h1 : row.anchor = a := hatag row (processAnchor_train_sub hrow)
        have h2 : g.anchor ∈ rest.map Prod.fst := hrec_anchor g hg
        rw [← hanch, h1] at h2
        exact hnotin h2
      · exact ih _ hrestnodup hresttag g hg it hit row hrow hanch
    · rcases List.mem_cons.mp hg with rfl | hg2
      · rcases hrow with hrow | hrow
        · exact processAnchor_leak hit hrow
        · exfalso
          have h2 := hrec_train row hrow
          rw [hanch] at h2
          exact hnotin h2
      · rcases hrow with hrow | hrow
        · exfalso
          have h1 : row.anchor = a := hatag row (processAnchor_train_sub hrow)
          have h2 : g.anchor ∈ rest.map Prod.fst := hrec_anchor g hg2
          rw [← hanch, h1] at h2
          exact hnotin h2
        · exact ih _ hrestnodup hresttag g hg2 it hit row hrow hanch

theorem byAnchor_keys (ts : List Triplet) :
    (byAnchor ts).map Prod.fst = firstSeen (ts.map Triplet.anchor) := by
  simp only [byAnchor, List.map_map]
  have h : (Prod.fst ∘ fun a : String => (a, ts.filter (fun t => decide (t.anchor = a))))
      = fun a : String => a := rfl
  rw [h]
  simp

theorem byAnchor_keys_nodup (ts : List Triplet) :
    ((byAnchor ts).map Prod.fst).Nodup := by
  rw [byAnchor_keys]
  exact firstSeenFrom_nodup _ _

theorem byAnchor_tag (ts : List Triplet) :
    ∀ p ∈ byAnchor ts, ∀ r ∈ p.2, r.anchor = p.1 := by
  intro p hp r hr
  simp only [byAnchor, List.mem_map] at hp
  obtain ⟨a, _, rfl⟩ := hp
  simpa using (List.mem_filter.mp hr).2

/-! ## Claims about `split_held_out`: leakage and deduplication -/

/-- C1: in every result of `split_held_out` (with `fraction ∈ (0,1)`), no
held-out item of a group shares a normalized text with the positive or
negative text of a training triplet of the same anchor; within each
group the items' normalized texts are pairwise distinct, and the
collection step keeps exactly the first occurrence of each normalized
candidate text that survives the leakage filter. -/
theorem c1_split_leakage_and_dedup (ts : List Triplet) (fraction : ℚ) (m seed : Nat)
    (h0 : 0 < fraction) (_h1 : fraction < 1) :
    (∀ g ∈ (split_held_out ts fraction m seed).2,
       (∀ it ∈ g.items, ∀ row ∈ (split_held_out ts fraction m seed).1,
          row.anchor = g.anchor →
            _normalize_text it.text ≠ _normalize_text row.positive ∧
            _normalize_text it.text ≠ _normalize_text row.negative)
       ∧ (g.items.map (fun it => _normalize_text it.text)).Nodup)
    ∧ (∀ cands tn,
         (collectHeldItems cands tn []).map (fun it => _normalize_text it.text) =
           firstSeen ((cands.map (fun c => _normalize_text c.1)).filter
             (fun n => !(decide (n ∈ tn))))) := by
  have hfz : fraction ≠ 0 := ne_of_gt h0
  constructor
  · simp only [split_held_out, if_neg hfz]
    intro g hg
    constructor
    · intro it hit row hrow hanch
      exact splitLoop_leakfree (byAnchor ts) _ (byAnchor_keys_nodup ts) (byAnchor_tag ts)
        g hg it hit row hrow hanch
    · obtain ⟨cands, tn, hshape⟩ := splitLoop_group_items _ _ g hg
      rw [hshape, collectHeldItems_map_norm]
      exact firstSeenFrom_nodup _ _
  · intro cands tn
    exact collectHeldItems_map_norm cands tn []

/-- Witness for C1 at a concrete input: the anchor "a" row carries two
case/whitespace variants of one text, and only the first survives. -/
theorem c1_witness :
    (0 : ℚ) < 1/2 ∧ (1/2 : ℚ) < 1 ∧
    ((AnchorHeldOutGroup.mk "a" [⟨"Dup  Text", true, 0⟩]).items.map
       (fun it => _normalize_text it.text)).Nodup :=
  ⟨by norm_num, by norm_num,
    ((c1_split_leakage_and_dedup
        [⟨"a", "Dup  Text", "dup text"⟩, ⟨"b", "x", "y"⟩] (1/2) 1 42
        (by norm_num) (by norm_num)).1
      ⟨"a", [⟨"Dup  Text", true, 0⟩]⟩ (by with_unfolding_all decide)).2⟩

theorem dictInsert_not_mem {d : List (String × α)} {k : String} {v : α}
    (h : k ∉ d.map Prod.fst) : dictInsert d k v = d ++ [(k, v)] := by
  induction d with
  | nil => rfl
  | cons p rest ih =>
    obtain ⟨k1, v1⟩ := p
    simp only [List.map_cons, List.mem_cons, not_or] at h
    simp only [dictInsert, if_neg (Ne.symm h.1), List.cons_append]
    exact congrArg _ (ih h.2)

theorem score_foldl_eq (sim : String → String → ℚ) :
    ∀ (groups : List AnchorHeldOutGroup) (acc : List (String × List ℚ)),
      (groups.map AnchorHeldOutGroup.anchor).Nodup →
      (∀ g ∈ groups, g.anchor ∉ acc.map Prod.fst) →
      groups.foldl (fun results g => dictInsert results g.anchor (scoreGroup sim g)) acc =
        acc ++ groups.map (fun g => (g.anchor, scoreGroup sim g)) := by
  intro groups
  induction groups with
  | nil => intro acc _ _; simp
  | cons g gs ih =>
    intro acc hnodup hdisj
    have hmapnodup : (g.anchor :: gs.map AnchorHeldOutGroup.anchor).Nodup := by
      simpa using hnodup
    have hgnotin : g.anchor ∉ gs.map AnchorHeldOutGroup.anchor :=
      (List.nodup_cons.mp hmapnodup).1
    simp only [List.foldl_cons]
    rw [dictInsert_not_mem (hdisj g (List.mem_cons_self _ _))]
    rw [ih _ (List.nodup_cons.mp hmapnodup).2 ?_]
    · simp
    · intro g2 hg2
      simp only [List.map_append, List.mem_append, not_or]
      refine ⟨hdisj g2 (List.mem_cons_of_mem _ hg2), ?_⟩
      simp only [List.map_cons, List.map_nil, List.mem_singleton]
      intro heq
      exact hgnotin (heq ▸ List.mem_map_of_mem AnchorHeldOutGroup.anchor hg2)

theorem score_held_out_items_eq_map (sim : String → String → ℚ)
    (groups : List AnchorHeldOutGroup)
    (hnodup : (groups.map AnchorHeldOutGroup.anchor).Nodup) :
    score_held_out_items sim groups =
      groups.map (fun g => (g.anchor, scoreGroup sim g)) := by
  unfold score_held_out_items
  rw [score_foldl_eq sim groups [] hnodup (by simp)]
  simp

/-! ## Claim about group uniqueness and the score map -/

/-- C10: the held-out groups returned by `split_held_out` have pairwise
distinct anchors, listed in first-seen anchor order (a sublist of the
deduplicated anchor sequence of the input), every returned group is
non-empty, and consequently `score_held_out_items` produces exactly one
entry per group — the association list pairing each group's anchor with
its own score list, overwriting nothing. -/
theorem c10_group_anchors_unique (ts : List Triplet) (fraction : ℚ) (m seed : Nat)
    (sim : String → String → ℚ) :
    ((split_held_out ts fraction m seed).2.map AnchorHeldOutGroup.anchor).Nodup
    ∧ List.Sublist ((split_held_out ts fraction m seed).2.map AnchorHeldOutGroup.anchor)
        (firstSeen (ts.map Triplet.anchor))
    ∧ (∀ g ∈ (split_held_out ts fraction m seed).2, g.items ≠ [])
    ∧ score_held_out_items sim (split_held_out ts fraction m seed).2 =
        (split_held_out ts fraction m seed).2.map
          (fun g => (g.anchor, scoreGroup sim g)) := by
  by_cases hf : fraction = 0
  · subst hf
    simp [split_held_out, score_held_out_items]
  · simp only [split_held_out, if_neg hf]
    have hsub : List.Sublist
        ((splitLoop fraction m (mtFromSeed seed) (byAnchor ts)).2.map
          AnchorHeldOutGroup.anchor)
        (firstSeen (ts.map Triplet.anchor)) := by
      rw [← byAnchor_keys]
      exact splitLoop_group_anchors _ _
    have hnodup := (byAnchor_keys_nodup ts).sublist (byAnchor_keys ts ▸ hsub)
    exact ⟨hnodup, hsub, fun g hg => splitLoop_groups_nonempty _ _ g hg,
      score_held_out_items_eq_map sim _ hnodup⟩

/-- Witness for C10: a two-anchor input produces two singleton-anchor
groups and a two-entry score map. -/
theorem c10_witness :
    score_held_out_items (fun a t => (a.length : ℚ) + t.length)
        (split_held_out [⟨"a", "p", "n"⟩, ⟨"b", "x", "y"⟩] (1/2) 1 7).2 =
      (split_held_out [⟨"a", "p", "n"⟩, ⟨"b", "x", "y"⟩] (1/2) 1 7).2.map
        (fun g => (g.anchor, scoreGroup (fun a t => (a.length : ℚ) + t.length) g)) :=
  (c10_group_anchors_unique [⟨"a", "p", "n"⟩, ⟨"b", "x", "y"⟩] (1/2) 1 7
    (fun a t => (a.length : ℚ) + t.length)).2.2.2

/-! ## Determinism and the zero-fraction short-circuit -/

/-- C4: `split_held_out` is deterministic — two invocations with equal
triplet lists, equal fraction, equal minimum anchor count and equal seed
return identical (train, held-out group) pairs, element for element.  In
this embedding the only randomness of the source, `random.Random(seed)`,
is a self-contained Mersenne-Twister state derived from the `seed`
argument alone (`mtFromSeed`), so the result cannot depend on any shared
global random state. -/
theorem c4_split_deterministic (ts1 ts2 : List Triplet) (f1 f2 : ℚ)
    (m1 m2 s1 s2 : Nat) (hts : ts1 = ts2) (hf : f1 = f2) (hm : m1 = m2)
    (hs : s1 = s2) :
    split_held_out ts1 f1 m1 s1 = split_held_out ts2 f2 m2 s2 := by
  subst hts hf hm hs
  rfl

/-- Witness for C4 at a concrete repeated invocation. -/
theorem c4_witness :
    split_held_out [⟨"a", "p", "n"⟩] (3/20) 4 42 =
      split_held_out [⟨"a", "p", "n"⟩] (3/20) 4 42 :=
  c4_split_deterministic [⟨"a", "p", "n"⟩] [⟨"a", "p", "n"⟩] (3/20) (3/20)
    4 4 42 42 rfl rfl rfl rfl

/-- C5: with `fraction = 0`, `split_held_out` returns the input triplet
list unchanged together with an empty group list, for every input,
minimum anchor count and seed. -/
theorem c5_fraction_zero (ts : List Triplet) (m seed : Nat) :
    split_held_out ts 0 m seed = (ts, []) := by
  simp [split_held_out]

/-! ## Claim about the taste-table aggregates -/

/-- C6: in the per-group aggregates of the taste table, the pairwise
ranking accuracy equals (number of positive/negative score pairs with
positive > negative) / (|positives|·|negatives|) · 100 whenever both
polarities are present — hence it is 100 when every positive score
exceeds every negative score; and when either polarity is absent the
corresponding average and the accuracy are 0, with no division by
zero (the source guards the division, and the embedding is total). -/
theorem c6_pair_accuracy (items : List HeldOutItem) (s : List ℚ) :
    (posScores items s ≠ [] → negScores items s ≠ [] →
       (tasteAggregates items s).2.2.2 =
         (pairCorrect (posScores items s) (negScores items s) : ℚ) /
           (((posScores items s).length : ℚ) * ((negScores items s).length : ℚ)) * 100)
    ∧ ((∀ p ∈ posScores items s, ∀ n ∈ negScores items s, n < p) →
        posScores items s ≠ [] → negScores items s ≠ [] →
        (tasteAggregates items s).2.2.2 = 100)
    ∧ (posScores items s = [] →
        (tasteAggregates items s).1 = 0 ∧ (tasteAggregates items s).2.2.2 = 0)
    ∧ (negScores items s = [] →
        (tasteAggregates items s).2.1 = 0 ∧ (tasteAggregates items s).2.2.2 = 0) := by
  set ps := posScores items s with hps
  set ns := negScores items s with hns
  have hform : ps ≠ [] → ns ≠ [] →
      (tasteAggregates items s).2.2.2 =
        (pairCorrect ps ns : ℚ) / ((ps.length : ℚ) * (ns.length : ℚ)) * 100 := by
    intro hp hn
    have hnz : ps.length * ns.length ≠ 0 := by
      simp [List.length_eq_zero, hp, hn]
    simp only [tasteAggregates, pairAccuracy, ← hps, ← hns, if_neg hnz]
    push_cast
    ring
  refine ⟨hform, ?_, ?_, ?_⟩
  · intro hall hp hn
    have hcorrect : pairCorrect ps ns = ps.length * ns.length := by
      unfold pairCorrect
      rw [List.length_flatMap]
      have : ∀ p ∈ ps, (ns.filter (fun n => decide (n < p))).length = ns.length := by
        intro p hp2
        rw [List.filter_eq_self.mpr (fun n hn2 => decide_eq_true (hall p hp2 n hn2))]
      simp only [Function.comp_def]
      rw [List.map_congr_left this]
      simp [mul_comm]
    rw [hform hp hn, hcorrect]
    have hq : ((ps.length : ℚ) * (ns.length : ℚ)) ≠ 0 := by
      simp [List.length_eq_zero, hp, hn]
    push_cast
    field_simp
  · intro hp
    constructor
    · simp [tasteAggregates, ← hps, hp, avgScores]
    · simp [tasteAggregates, pairAccuracy, ← hps, hp]
  · intro hn
    constructor
    · simp [tasteAggregates, ← hns, hn, avgScores]
    · simp [tasteAggregates, pairAccuracy, ← hns, hn]

/-- Witness for C6: a group with one positive above one negative scores
100%, and a group with no positives has zero accuracy and average. -/
theorem c6_witness :
    (tasteAggregates [⟨"p1", true, 0⟩, ⟨"n1", false, 0⟩] [3, 1]).2.2.2 = 100
    ∧ (tasteAggregates [⟨"n1", false, 0⟩] [5]).1 = 0
    ∧ (tasteAggregates [⟨"n1", false, 0⟩] [5]).2.2.2 = 0 :=
  ⟨(c6_pair_accuracy [⟨"p1", true, 0⟩, ⟨"n1", false, 0⟩] [3, 1]).2.1
      (by with_unfolding_all decide) (by with_unfolding_all decide)
      (by with_unfolding_all decide),
    ((c6_pair_accuracy [⟨"n1", false, 0⟩] [5]).2.2.1 (by with_unfolding_all decide)).1,
    ((c6_pair_accuracy [⟨"n1", false, 0⟩] [5]).2.2.1 (by with_unfolding_all decide)).2⟩

/-! ## Helper lemmas for the triplet builder -/

theorem cycleTake_length (l : List String) (n : Nat) : (cycleTake l n).length = n := by
  simp [cycleTake]

theorem cycleTake_mem {l : List String} {n : Nat} {x : String} (hl : l ≠ [])
    (h : x ∈ cycleTake l n) : x ∈ l := by
  simp only [cycleTake, List.mem_map] at h
  obtain ⟨i, _, rfl⟩ := h
  have hlen : 0 < l.length := List.length_pos.mpr hl
  have hmod : i % l.length < l.length := Nat.mod_lt _ hlen
  rw [List.getD_eq_getElem _ _ hmod]
  exact l.getElem_mem hmod

theorem range_mod_count (S k : Nat) (hk : k < S) :
    ∀ L, k < L →
      ((List.range L).filter (fun i => decide (i % S = k))).length = (L - k - 1) / S + 1 := by
  intro L
  induction L with
  | zero => omega
  | succ L ih =>
    intro hkL
    rw [List.range_succ, List.filter_append, List.length_append]
    have hfl : ((List.filter (fun i => decide (i % S = k)) [L]).length) =
        if L % S = k then 1 else 0 := by
      by_cases hLk : L % S = k <;> simp [hLk]
    rw [hfl]
    have harg : L + 1 - k - 1 = L - k := by omega
    rw [harg]
    by_cases hcase : k < L
    · rw [ih hcase]
      have hdvd : (L % S = k) ↔ S ∣ (L - k) := by
        constructor
        · intro h
          refine (Nat.modEq_iff_dvd' (by omega)).mp ?_
          unfold Nat.ModEq
          rw [h, Nat.mod_eq_of_lt hk]
        · intro h
          have h2 := (Nat.modEq_iff_dvd' (a := k) (b := L) (by omega)).mpr h
          unfold Nat.ModEq at h2
          rw [Nat.mod_eq_of_lt hk] at h2
          omega
      have hm1 : L - k = (L - k - 1) + 1 := by omega
      have hsucc : (L - k) / S = (L - k - 1) / S + if S ∣ (L - k) then 1 else 0 := by
        rw [hm1, Nat.succ_div, ← hm1]
      by_cases hLk : L % S = k
      · rw [if_pos hLk]
        rw [if_pos (hdvd.mp hLk)] at hsucc
        omega
      · rw [if_neg hLk]
        rw [if_neg (fun hd => hLk (hdvd.mpr hd))] at hsucc
        omega
    · have hkL2 : k = L := by omega
      subst hkL2
      have hall : (List.range k).filter (fun i => decide (i % S = k)) = [] := by
        rw [List.filter_eq_nil_iff]
        intro i hi
        have h1 : i < k := List.mem_range.mp hi
        have h2 : i % S = i := Nat.mod_eq_of_lt (by omega)
        simp only [decide_eq_true_eq, h2]
        omega
      have hmk : k % S = k := Nat.mod_eq_of_lt hk
      rw [hall]
      have h0 : k - k = 0 := by omega
      rw [h0]
      simp [hmk]

theorem cycle_usage_bounds (L S k : Nat) (hk : k < S) (hSL : S ≤ L) :
    1 ≤ ((List.range L).filter (fun i => decide (i % S = k))).length ∧
    ((List.range L).filter (fun i => decide (i % S = k))).length ≤ (L + S - 1) / S := by
  have hkL : k < L := lt_of_lt_of_le hk hSL
  rw [range_mod_count S k hk L hkL]
  refine ⟨Nat.le_add_left 1 _, ?_⟩
  have hS : 0 < S := by omega
  have h1 : (L - k - 1) / S ≤ (L - 1) / S := Nat.div_le_div_right (by omega)
  have h2 : (L - 1) / S + 1 = (L - 1 + S) / S := (Nat.add_div_right _ hS).symm
  have h3 : L - 1 + S = L + S - 1 := by omega
  rw [h3] at h2
  exact le_of_le_of_eq (Nat.add_le_add_right h1 1) h2

theorem mapTitles_sub {titles : List String} {ids : List Nat}
    (hv : ∀ i ∈ ids, i < titles.length) :
    ∀ x ∈ ids.map (fun i => titles.getD i ""), x ∈ titles := by
  intro x hx
  simp only [List.mem_map] at hx
  obtain ⟨i, hi, rfl⟩ := hx
  rw [List.getD_eq_getElem _ _ (hv i hi)]
  exact titles.getElem_mem (hv i hi)

/-! ## Claim about the triplet builder -/

/-- C3: for non-empty positive/negative index lists over the title list,
`_create_hn_dataset` returns exactly `max |P| |N|` triplets of the form
(anchor, p, n) with `p` drawn from the selected positive titles and `n`
from the selected negative titles (and hence from `titles` — nothing is
fabricated); the longer polarity appears exactly once each, in its
original order, while the shorter polarity is cycled, each position
being used at least once and at most ⌈longer/shorter⌉ times. -/
theorem c3_triplet_builder (titles : List String) (anchor : String)
    (pos_ids neg_ids : List Nat) (hp : pos_ids ≠ []) (hn : neg_ids ≠ [])
    (hpv : ∀ i ∈ pos_ids, i < titles.length)
    (hnv : ∀ i ∈ neg_ids, i < titles.length) :
    (_create_hn_dataset titles anchor pos_ids neg_ids).length =
        max pos_ids.length neg_ids.length
    ∧ (∀ t ∈ _create_hn_dataset titles anchor pos_ids neg_ids,
        t.anchor = anchor
        ∧ t.positive ∈ pos_ids.map (fun i => titles.getD i "")
        ∧ t.negative ∈ neg_ids.map (fun i => titles.getD i "")
        ∧ t.positive ∈ titles ∧ t.negative ∈ titles)
    ∧ (neg_ids.length ≤ pos_ids.length →
        (_create_hn_dataset titles anchor pos_ids neg_ids).map Triplet.positive =
          pos_ids.map (fun i => titles.getD i "")
        ∧ (_create_hn_dataset titles anchor pos_ids neg_ids).map Triplet.negative =
          cycleTake (neg_ids.map (fun i => titles.getD i "")) pos_ids.length)
    ∧ (pos_ids.length < neg_ids.length →
        (_create_hn_dataset titles anchor pos_ids neg_ids).map Triplet.negative =
          neg_ids.map (fun i => titles.getD i "")
        ∧ (_create_hn_dataset titles anchor pos_ids neg_ids).map Triplet.positive =
          cycleTake (pos_ids.map (fun i => titles.getD i "")) neg_ids.length)
    ∧ (∀ k < min pos_ids.length neg_ids.length,
        1 ≤ ((List.range (max pos_ids.length neg_ids.length)).filter
              (fun i => decide (i % (min pos_ids.length neg_ids.length) = k))).length
        ∧ ((List.range (max pos_ids.length neg_ids.length)).filter
              (fun i => decide (i % (min pos_ids.length neg_ids.length) = k))).length ≤
            (max pos_ids.length neg_ids.length + min pos_ids.length neg_ids.length - 1)
              / min pos_ids.length neg_ids.length) := by
  have hcond : ¬ (pos_ids = [] ∨ neg_ids = []) := not_or.mpr ⟨hp, hn⟩
  have hP : (pos_ids.map (fun i => titles.getD i "")).length = pos_ids.length :=
    List.length_map _ _
  have hN : (neg_ids.map (fun i => titles.getD i "")).length = neg_ids.length :=
    List.length_map _ _
  have hPne : pos_ids.map (fun i => titles.getD i "") ≠ [] := by
    simp [List.map_eq_nil_iff, hp]
  have hNne : neg_ids.map (fun i => titles.getD i "") ≠ [] := by
    simp [List.map_eq_nil_iff, hn]
  simp only [_create_hn_dataset, if_neg hcond]
  by_cases hle : (neg_ids.map (fun i => titles.getD i "")).length ≤
      (pos_ids.map (fun i => titles.getD i "")).length
  · rw [if_pos hle]
    have hle2 : neg_ids.length ≤ pos_ids.length := by rw [← hP, ← hN]; exact hle
    have hziplen : ((pos_ids.map (fun i => titles.getD i "")).zip
        (cycleTake (neg_ids.map (fun i => titles.getD i ""))
          (pos_ids.map (fun i => titles.getD i "")).length)).length =
        pos_ids.length := by
      rw [List.length_zip, cycleTake_length, hP]
      exact Nat.min_self _
    refine ⟨?_, ?_, ?_, ?_, ?_⟩
    · rw [List.length_map, hziplen]
      exact (Nat.max_eq_left hle2).symm
    · intro t ht
      simp only [List.mem_map] at ht
      obtain ⟨q, hq, rfl⟩ := ht
      have hq2 := List.of_mem_zip hq
      have hq3 : q.2 ∈ neg_ids.map (fun i => titles.getD i "") :=
        cycleTake_mem hNne hq2.2
      exact ⟨rfl, hq2.1, hq3, mapTitles_sub hpv _ hq2.1, mapTitles_sub hnv _ hq3⟩
    · intro _
      constructor
      · rw [List.map_map]
        have hcomp : (Triplet.positive ∘ fun p : String × String =>
            Triplet.mk anchor p.1 p.2) = Prod.fst := rfl
        rw [hcomp]
        exact List.map_fst_zip _ _ (by rw [cycleTake_length, hP])
      · rw [List.map_map]
        have hcomp : (Triplet.negative ∘ fun p : String × String =>
            Triplet.mk anchor p.1 p.2) = Prod.snd := rfl
        rw [hcomp, hP]
        exact List.map_snd_zip _ _ (by rw [cycleTake_length, hP])
    · intro hlt
      exact absurd hle2 (Nat.not_le_of_lt hlt)
    · intro k hk
      exact cycle_usage_bounds _ _ k hk (min_le_max)
  · rw [if_neg hle]
    have hlt2 : pos_ids.length < neg_ids.length := by
      rw [← hP, ← hN]
      exact Nat.lt_of_not_le hle
    have hziplen : ((cycleTake (pos_ids.map (fun i => titles.getD i ""))
        (neg_ids.map (fun i => titles.getD i "")).length).zip
          (neg_ids.map (fun i => titles.getD i ""))).length = neg_ids.length := by
      rw [List.length_zip, cycleTake_length, hN]
      exact Nat.min_self _
    refine ⟨?_, ?_, ?_, ?_, ?_⟩
    · rw [List.length_map, hziplen]
      exact (Nat.max_eq_right (Nat.le_of_lt hlt2)).symm
    · intro t ht
      simp only [List.mem_map] at ht
      obtain ⟨q, hq, rfl⟩ := ht
      have hq2 := List.of_mem_zip hq
      have hq3 : q.1 ∈ pos_ids.map (fun i => titles.getD i "") :=
        cycleTake_mem hPne hq2.1
      exact ⟨rfl, hq3, hq2.2, mapTitles_sub hpv _ hq3, mapTitles_sub hnv _ hq2.2⟩
    · intro hle3
      exact absurd hle3 (Nat.not_le_of_lt hlt2)
    · intro _
      constructor
      · rw [List.map_map]
        have hcomp : (Triplet.negative ∘ fun p : String × String =>
            Triplet.mk anchor p.1 p.2) = Prod.snd := rfl
        rw [hcomp]
        exact List.map_snd_zip _ _ (by rw [cycleTake_length, hN])
      · rw [List.map_map]
        have hcomp : (Triplet.positive ∘ fun p : String × String =>
            Triplet.mk anchor p.1 p.2) = Prod.fst := rfl
        rw [hcomp, hN]
        exact List.map_fst_zip _ _ (by rw [cycleTake_length, hN])
    · intro k hk
      exact cycle_usage_bounds _ _ k hk (min_le_max)

/-- Witness for C3 at the spec's scenario: titles A,B,C,D, favorites
{0,1}, dislike {2}, anchor "X" give the two triplets (X,A,C) and
(X,B,C), negative C reused by cycling. -/
theorem c3_witness :
    (_create_hn_dataset ["A", "B", "C", "D"] "X" [0, 1] [2]).length = 2
    ∧ (_create_hn_dataset ["A", "B", "C", "D"] "X" [0, 1] [2]).map Triplet.positive
        = ["A", "B"] :=
  ⟨by
    rw [(c3_triplet_builder ["A", "B", "C", "D"] "X" [0, 1] [2] (by decide) (by decide)
      (by decide) (by decide)).1]
    rfl,
   by
    rw [((c3_triplet_builder ["A", "B", "C", "D"] "X" [0, 1] [2] (by decide) (by decide)
      (by decide) (by decide)).2.2.1 (by decide)).1]
    rfl⟩

/-! ## Claims about CSV import -/

theorem maybe_append_triplet_fields {row : List String} {t : Triplet}
    (h : t ∈ maybe_append_triplet row) :
    t.anchor ≠ "" ∧ t.positive ≠ "" ∧ t.negative ≠ "" := by
  unfold maybe_append_triplet at h
  split at h
  · simp at h
  split at h
  · next hcond =>
    rcases List.mem_singleton.mp h with rfl
    exact hcond
  · simp at h

/-- C7 counterexample: the session CSV import accepts the row
`["x", "", "y"]` — three fields, the middle one empty after trimming —
as one imported triplet, so "each field non-empty after trimming" fails;
and `load_csv` accepts the four-field row `["a","b","c","d"]`, keeping
its first three fields, so "exactly three fields" fails there. -/
theorem c7_counterexample :
    (import_additional_dataset [] true true [["x", "", "y"]] false) =
        ([["x", "", "y"]], "Imported 1 triplets.")
    ∧ load_csv [["a", "b", "c", "d"]] = [⟨"a", "b", "c"⟩] := by
  constructor <;> with_unfolding_all decide

/-- C7 (amended): every triplet accepted by the session CSV import not
already present came from a row with exactly three fields (fields are
trimmed but may be empty); a first row whose first field
case-insensitively equals "anchor" is dropped as header.  `train.py`'s
`load_csv` instead requires the first three trimmed fields non-empty
(accepting rows with three or more fields).  Importing
`[["Anchor","Positive","Negative"], ["X","p1","n1"]]` yields exactly one
triplet in both. -/
theorem c7_amended_import_rules (prev rows : List (List String))
    (has_path file_ok read_error : Bool) :
    (∀ r ∈ (import_additional_dataset prev has_path file_ok rows read_error).1,
        r ∈ prev ∨ ∃ row ∈ importBody rows, row.length = 3 ∧ r = row.map String.trim)
    ∧ (∀ h t, rows = h :: t → h ≠ [] → (h.headD "").toLower.trim = "anchor" →
        importBody rows = t)
    ∧ (∀ t ∈ load_csv rows, t.anchor ≠ "" ∧ t.positive ≠ "" ∧ t.negative ≠ "")
    ∧ import_additional_dataset [] true true
        [["Anchor", "Positive", "Negative"], ["X", "p1", "n1"]] false =
        ([["X", "p1", "n1"]], "Imported 1 triplets.")
    ∧ load_csv [["Anchor", "Positive", "Negative"], ["X", "p1", "n1"]] =
        [⟨"X", "p1", "n1"⟩] := by
  refine ⟨?_, ?_, ?_, ?_, ?_⟩
  · intro r hr
    unfold import_additional_dataset at hr
    cases has_path with
    | false => exact Or.inl hr
    | true =>
    cases file_ok with
    | false => exact Or.inl hr
    | true =>
    cases rows with
    | nil => exact Or.inl hr
    | cons hd tl =>
    cases read_error with
    | true => exact Or.inl hr
    | false =>
      by_cases hlen : (importParsed (hd :: tl)).length = 0
      · simp only [hlen] at hr
        exact Or.inl (by simpa using hr)
      · have hr2 : r ∈ importParsed (hd :: tl) := by simpa [hlen] using hr
        refine Or.inr ?_
        simp only [importParsed, List.mem_map, List.mem_filter] at hr2
        obtain ⟨row, ⟨hrow, hlen3⟩, rfl⟩ := hr2
        exact ⟨row, hrow, by simpa using hlen3, rfl⟩
  · intro h t hrows hne hhead
    subst hrows
    unfold importBody
    show (if h ≠ [] ∧ (h.headD "").toLower.trim = "anchor" then t else h :: t) = t
    rw [if_pos ⟨hne, hhead⟩]
  · intro t ht
    unfold load_csv at ht
    split at ht
    · simp at ht
    · rcases List.mem_append.mp ht with h1 | h1
      · split at h1
        · simp at h1
        · exact maybe_append_triplet_fields h1
      · obtain ⟨row, _, hrow⟩ := List.mem_flatMap.mp h1
        exact maybe_append_triplet_fields hrow
  · with_unfolding_all decide
  · with_unfolding_all decide

/-- Witness for C7 (amended) at the header scenario. -/
theorem c7_witness :
    importBody [["Anchor", "Positive", "Negative"], ["X", "p1", "n1"]] = [["X", "p1", "n1"]]
    ∧ (import_additional_dataset [] true true
        [["Anchor", "Positive", "Negative"], ["X", "p1", "n1"]] false).1.length = 1 :=
  ⟨(c7_amended_import_rules [] [["Anchor", "Positive", "Negative"], ["X", "p1", "n1"]]
      true true false).2.1 ["Anchor", "Positive", "Negative"] [["X", "p1", "n1"]]
      rfl (by decide) (by with_unfolding_all decide),
   by
    rw [congrArg Prod.fst (c7_amended_import_rules [] [["Anchor", "Positive", "Negative"],
      ["X", "p1", "n1"]] true true false).2.2.2.1]
    rfl⟩

/-- C8: dataset import is atomic — whenever the import fails (missing
path, unreadable file, empty file, read error, or zero valid rows) the
previously imported dataset is returned untouched; the state is replaced
only by a successfully parsed dataset with at least one valid row. -/
theorem c8_import_atomic (prev : List (List String)) (has_path file_ok : Bool)
    (rows : List (List String)) (read_error : Bool) :
    ((has_path = false ∨ file_ok = false ∨ rows = [] ∨ read_error = true ∨
        importParsed rows = []) →
      (import_additional_dataset prev has_path file_ok rows read_error).1 = prev)
    ∧ ((import_additional_dataset prev has_path file_ok rows read_error).1 = prev
       ∨ ((import_additional_dataset prev has_path file_ok rows read_error).1 =
            importParsed rows ∧ 1 ≤ (importParsed rows).length)) := by
  constructor
  · intro hfail
    unfold import_additional_dataset
    cases has_path with
    | false => rfl
    | true =>
    cases file_ok with
    | false => rfl
    | true =>
    cases rows with
    | nil => rfl
    | cons hd tl =>
    cases read_error with
    | true => rfl
    | false =>
      have hp : importParsed (hd :: tl) = [] := by
        rcases hfail with h | h | h | h | h
        · exact absurd h (by simp)
        · exact absurd h (by simp)
        · exact absurd h (by simp)
        · exact absurd h (by simp)
        · exact h
      have hlen : (importParsed (hd :: tl)).length = 0 := by rw [hp]; rfl
      simp [hlen]
  · unfold import_additional_dataset
    cases has_path with
    | false => exact Or.inl rfl
    | true =>
    cases file_ok with
    | false => exact Or.inl rfl
    | true =>
    cases rows with
    | nil => exact Or.inl rfl
    | cons hd tl =>
    cases read_error with
    | true => exact Or.inl rfl
    | false =>
      by_cases hlen : (importParsed (hd :: tl)).length = 0
      · refine Or.inl ?_
        simp [hlen]
      · refine Or.inr ⟨?_, by omega⟩
        simp [hlen]

/-- Witness for C8: a failing import (a lone two-field row parses to
nothing) leaves a non-trivial previous dataset untouched. -/
theorem c8_witness :
    (import_additional_dataset [["old", "o", "o"]] true true [["x", "y"]] false).1 =
      [["old", "o", "o"]] :=
  (c8_import_atomic [["old", "o", "o"]] true true [["x", "y"]] false).1
    (Or.inr (Or.inr (Or.inr (Or.inr (by with_unfolding_all decide)))))

/-! ## Claims about the TasteTracker transitions -/

theorem setBaselines_map (items : List HeldOutItem) (f : HeldOutItem → ℚ) :
    setBaselines items (items.map f) =
      items.map (fun it => { it with baseline_score := f it }) := by
  induction items with
  | nil => rfl
  | cons it its ih => simp only [List.map_cons, setBaselines, ih]

theorem dictGetD_map_anchor {F : AnchorHeldOutGroup → List ℚ}
    {groups : List AnchorHeldOutGroup} {g : AnchorHeldOutGroup} (dflt : List ℚ)
    (hnodup : (groups.map AnchorHeldOutGroup.anchor).Nodup) (hg : g ∈ groups) :
    dictGetD (groups.map (fun g2 => (g2.anchor, F g2))) g.anchor dflt = F g := by
  induction groups with
  | nil => simp at hg
  | cons g0 gs ih =>
    have hnodup2 : (g0.anchor :: gs.map AnchorHeldOutGroup.anchor).Nodup := by
      simpa using hnodup
    rcases List.mem_cons.mp hg with rfl | hg2
    · simp [dictGetD]
    · have hne : g0.anchor ≠ g.anchor := by
        intro heq
        exact (List.nodup_cons.mp hnodup2).1
          (heq ▸ List.mem_map_of_mem AnchorHeldOutGroup.anchor hg2)
      simp only [List.map_cons, dictGetD, if_neg hne]
      exact ih (List.nodup_cons.mp hnodup2).2 hg2

/-- `on_train_begin` rewrites every baseline from the current snapshot. -/
theorem on_train_begin_groups (sim : String → String → ℚ) (tr : TasteTracker)
    (hnodup : (tr.groups.map AnchorHeldOutGroup.anchor).Nodup) :
    (on_train_begin sim tr).groups = tr.groups.map (fun g =>
      { g with items := g.items.map (fun it =>
          { it with baseline_score := sim g.anchor it.text }) }) := by
  unfold on_train_begin
  simp only []
  rw [score_held_out_items_eq_map sim tr.groups hnodup]
  apply List.map_congr_left
  intro g hg
  rw [dictGetD_map_anchor [] hnodup hg]
  unfold scoreGroup
  rw [setBaselines_map g.items (fun it => sim g.anchor it.text)]

/-- C2 (amended): the first train-begin transition writes every
held-out item's `baseline_score` from that snapshot; epoch-end
transitions never modify the groups (so baselines survive each epoch
snapshot); but a second train-begin invocation is NOT rejected — it
silently re-executes, overwriting every baseline exactly as a first
invocation on the same tracker would (no StateError exists in the
code). -/
theorem c2_tracker_baseline (sim1 sim2 : String → String → ℚ) (tr : TasteTracker)
    (hnodup : (tr.groups.map AnchorHeldOutGroup.anchor).Nodup) :
    (on_train_begin sim1 tr).groups = tr.groups.map (fun g =>
        { g with items := g.items.map (fun it =>
            { it with baseline_score := sim1 g.anchor it.text }) })
    ∧ (∀ (sim3 : String → String → ℚ) (tr2 : TasteTracker),
        (on_epoch_end sim3 tr2).groups = tr2.groups)
    ∧ on_train_begin sim2 (on_train_begin sim1 tr) = on_train_begin sim2 tr := by
  refine ⟨on_train_begin_groups sim1 tr hnodup, fun sim3 tr2 => rfl, ?_⟩
  have hanchors : ((on_train_begin sim1 tr).groups.map AnchorHeldOutGroup.anchor) =
      tr.groups.map AnchorHeldOutGroup.anchor := by
    rw [on_train_begin_groups sim1 tr hnodup, List.map_map]
    rfl
  have hfs : (on_train_begin sim1 tr).final_scores = tr.final_scores := rfl
  have h2 := on_train_begin_groups sim2 (on_train_begin sim1 tr) (by rw [hanchors]; exact hnodup)
  have h3 := on_train_begin_groups sim2 tr hnodup
  have hgroups : (on_train_begin sim2 (on_train_begin sim1 tr)).groups =
      (on_train_begin sim2 tr).groups := by
    rw [h2, h3, on_train_begin_groups sim1 tr hnodup, List.map_map]
    apply List.map_congr_left
    intro g hg
    simp only [Function.comp_def, List.map_map]
  have hfs2 : (on_train_begin sim2 (on_train_begin sim1 tr)).final_scores =
      (on_train_begin sim2 tr).final_scores := rfl
  cases he : on_train_begin sim2 (on_train_begin sim1 tr) with
  | mk gs fs =>
    cases he2 : on_train_begin sim2 tr with
    | mk gs2 fs2 =>
      rw [he, he2] at hgroups hfs2
      simp only at hgroups hfs2
      rw [hgroups, hfs2]

/-- C2 counterexample: calling the train-begin transition twice on the
same tracker raises nothing and is not ignored — the second call
overwrites `baseline_score` (1 becomes 2), contradicting both
"written exactly once, never afterward" and "a second invocation is
surfaced as a StateError". -/
theorem c2_counterexample :
    on_train_begin (fun _ _ => 1) (TasteTracker.mk [⟨"a", [⟨"t", true, 0⟩]⟩] []) =
        TasteTracker.mk [⟨"a", [⟨"t", true, 1⟩]⟩] []
    ∧ on_train_begin (fun _ _ => 2)
        (on_train_begin (fun _ _ => 1) (TasteTracker.mk [⟨"a", [⟨"t", true, 0⟩]⟩] [])) =
        TasteTracker.mk [⟨"a", [⟨"t", true, 2⟩]⟩] [] := by
  constructor <;> with_unfolding_all decide

/-- Witness for C2 (amended) at a concrete tracker. -/
theorem c2_witness :
    (on_train_begin (fun _ _ => 5) (TasteTracker.mk [⟨"a", [⟨"t", true, 0⟩]⟩] [])).groups =
      [⟨"a", [⟨"t", true, 5⟩]⟩] := by
  rw [(c2_tracker_baseline (fun _ _ => 5) (fun _ _ => 5)
    (TasteTracker.mk [⟨"a", [⟨"t", true, 0⟩]⟩] []) (by with_unfolding_all decide)).1]
  with_unfolding_all decide

/-! ## Helper lemmas for row conservation of the split -/

theorem pyRound_bounds (q : ℚ) : ⌊q⌋ ≤ pyRound q ∧ pyRound q ≤ ⌊q⌋ + 1 := by
  unfold pyRound
  split_ifs <;> omega

theorem pyRound_natCast (n : Nat) : pyRound (n : ℚ) = n := by
  unfold pyRound
  rw [Int.floor_natCast]
  have h0 : (n : ℚ) - ((n : ℤ) : ℚ) = 0 := by push_cast; ring
  rw [h0]
  norm_num

theorem heldCount_le {f : ℚ} {n : Nat} (h1 : f ≤ 1) (hn : 1 ≤ n) :
    heldCount n f ≤ n := by
  unfold heldCount
  rw [Int.toNat_le]
  refine max_le (by exact_mod_cast hn) ?_
  have hq : (n : ℚ) * f ≤ (n : ℚ) :=
    mul_le_of_le_one_right (by positivity) h1
  rcases eq_or_lt_of_le hq with heq | hlt
  · rw [heq, pyRound_natCast]
  · have hfl : ⌊(n : ℚ) * f⌋ < (n : ℤ) := Int.floor_lt.mpr (by exact_mod_cast hlt)
    have := (pyRound_bounds ((n : ℚ) * f)).2
    omega

theorem processAnchor_train_spec (f : ℚ) (m : Nat) (st : MTState) (rows : List Triplet) :
    List.Subperm (processAnchor f m st rows).1 rows
    ∧ (processAnchor f m st rows).1.length =
        (if m ≤ rows.length then rows.length - heldCount rows.length f
         else rows.length) := by
  by_cases hm : rows.length < m
  · rw [processAnchor, if_pos hm]
    exact ⟨List.Perm.refl rows |>.subperm, by rw [if_neg (by omega)]⟩
  · rw [processAnchor, if_neg hm]
    constructor
    · exact ((List.drop_sublist _ _).subperm).trans (pyShuffle_perm st rows).subperm
    · simp only [List.length_drop, pyShuffle_length, if_pos (Nat.le_of_not_lt hm)]

theorem mem_firstSeenFrom {x : String} :
    ∀ {l seen : List String}, x ∈ l → x ∉ seen → x ∈ firstSeenFrom seen l := by
  intro l
  induction l with
  | nil => intro seen h; simp at h
  | cons a rest ih =>
    intro seen h hns
    rcases List.mem_cons.mp h with rfl | h2
    · simp only [firstSeenFrom, if_neg hns]
      exact List.mem_cons_self _ _
    · simp only [firstSeenFrom]
      split
      · exact ih h2 hns
      · by_cases hxa : x = a
        · exact hxa ▸ List.mem_cons_self _ _
        · refine List.mem_cons_of_mem _ (ih h2 ?_)
          simp [hxa, hns]

theorem mem_firstSeen {x : String} {l : List String} :
    x ∈ firstSeen l ↔ x ∈ l :=
  ⟨fun h => (firstSeenFrom_mem h).1, fun h => mem_firstSeenFrom h (by simp)⟩

theorem splitLoop_filter_spec {f : ℚ} {m : Nat} :
    ∀ (ba : List (String × List Triplet)) (st : MTState),
      (ba.map Prod.fst).Nodup →
      (∀ p ∈ ba, ∀ r ∈ p.2, r.anchor = p.1) →
      ∀ p ∈ ba,
        List.Subperm
          ((splitLoop f m st ba).1.filter (fun t => decide (t.anchor = p.1))) p.2
        ∧ ((splitLoop f m st ba).1.filter (fun t => decide (t.anchor = p.1))).length =
            (if m ≤ p.2.length then p.2.length - heldCount p.2.length f
             else p.2.length) := by
  intro ba
  induction ba with
  | nil => intro st _ _ p hp; simp at hp
  | cons q rest ih =>
    intro st hnodup htag p hp
    obtain ⟨b, rowsB⟩ := q
    have hmapnodup : (b :: rest.map Prod.fst).Nodup := by simpa using hnodup
    have hbnotin : b ∉ rest.map Prod.fst := (List.nodup_cons.mp hmapnodup).1
    have hrestnodup : (rest.map Prod.fst).Nodup := (List.nodup_cons.mp hmapnodup).2
    have hresttag : ∀ p2 ∈ rest, ∀ r ∈ p2.2, r.anchor = p2.1 :=
      fun p2 hp2 => htag p2 (List.mem_cons_of_mem _ hp2)
    have hbtag : ∀ r ∈ rowsB, r.anchor = b :=
      fun r hr => htag (b, rowsB) (List.mem_cons_self _ _) r hr
    simp only [splitLoop, List.filter_append]
    rcases List.mem_cons.mp hp with rfl | hp2
    · -- p is the head entry
      have hA : (processAnchor f m st rowsB).1.filter
          (fun t => decide (t.anchor = b)) = (processAnchor f m st rowsB).1 :=
        List.filter_eq_self.mpr (fun r hr =>
          decide_eq_true (hbtag r (processAnchor_train_sub hr)))
      have hB : (splitLoop f m (processAnchor f m st rowsB).2.2 rest).1.filter
          (fun t => decide (t.anchor = b)) = [] := by
        rw [List.filter_eq_nil_iff]
        intro r hr
        obtain ⟨p2, hp2, hrp2⟩ := splitLoop_train_rows rest _ r hr
        have : r.anchor = p2.1 := hresttag p2 hp2 r hrp2
        simp only [decide_eq_true_eq, this]
        intro heq
        exact hbnotin (heq ▸ List.mem_map_of_mem Prod.fst hp2)
      rw [hA, hB, List.append_nil]
      exact processAnchor_train_spec f m st rowsB
    · -- p is in the tail
      have hne : p.1 ≠ b := by
        intro heq
        exact hbnotin (heq ▸ List.mem_map_of_mem Prod.fst hp2)
      have hA : (processAnchor f m st rowsB).1.filter
          (fun t => decide (t.anchor = p.1)) = [] := by
        rw [List.filter_eq_nil_iff]
        intro r hr
        have : r.anchor = b := hbtag r (processAnchor_train_sub hr)
        simp only [decide_eq_true_eq, this]
        exact fun heq => hne heq.symm
      rw [hA, List.nil_append]
      exact ih _ hrestnodup hresttag p hp2

theorem splitLoop_total_length {f : ℚ} {m : Nat} :
    ∀ (ba : List (String × List Triplet)) (st : MTState),
      (splitLoop f m st ba).1.length =
        (ba.map (fun p => if m ≤ p.2.length then p.2.length - heldCount p.2.length f
                          else p.2.length)).sum := by
  intro ba
  induction ba with
  | nil => intro st; simp [splitLoop]
  | cons q rest ih =>
    intro st
    obtain ⟨b, rowsB⟩ := q
    simp only [splitLoop, List.length_append, List.map_cons, List.sum_cons]
    rw [(processAnchor_train_spec f m st rowsB).2, ih]

theorem length_filter_partition :
    ∀ (keys : List String) (l : List Triplet), keys.Nodup →
      (∀ t ∈ l, t.anchor ∈ keys) →
      (keys.map (fun a => (l.filter (fun t => decide (t.anchor = a))).length)).sum =
        l.length := by
  intro keys
  induction keys with
  | nil =>
    intro l _ hcov
    cases l with
    | nil => rfl
    | cons t ts => exact absurd (hcov t (List.mem_cons_self _ _)) (by simp)
  | cons k ks ih =>
    intro l hnodup hcov
    simp only [List.map_cons, List.sum_cons]
    have hks : ∀ a ∈ ks, l.filter (fun t => decide (t.anchor = a)) =
        (l.filter (fun t => decide (¬ t.anchor = k))).filter
          (fun t => decide (t.anchor = a)) := by
      intro a ha
      have hak : a ≠ k := by
        intro heq
        exact (List.nodup_cons.mp hnodup).1 (heq ▸ ha)
      rw [List.filter_filter]
      refine (List.filter_congr ?_).symm
      intro t _
      by_cases hta : t.anchor = a
      · simp [hta, hak]
      · simp [hta]
    have hmapeq : ks.map (fun a => (l.filter (fun t => decide (t.anchor = a))).length) =
        ks.map (fun a => ((l.filter (fun t => decide (¬ t.anchor = k))).filter
          (fun t => decide (t.anchor = a))).length) :=
      List.map_congr_left (fun a ha => by rw [hks a ha])
    rw [hmapeq, ih (l.filter (fun t => decide (¬ t.anchor = k)))
      (List.nodup_cons.mp hnodup).2 ?_]
    · have hl := List.length_eq_length_filter_add (l := l)
        (fun t => decide (t.anchor = k))
      have hcong : l.filter (fun t => decide (¬ t.anchor = k)) =
          l.filter (fun t => !(decide (t.anchor = k))) :=
        List.filter_congr (fun t _ => by by_cases h : t.anchor = k <;> simp [h])
      rw [hcong]
      omega
    · intro t ht
      have ht2 := List.mem_filter.mp ht
      have := hcov t ht2.1
      rcases List.mem_cons.mp this with heq | hmem
      · exact absurd heq (by simpa using ht2.2)
      · exact hmem

theorem sum_if_sub (m : Nat) (n h : String → Nat) :
    ∀ (keys : List String), (∀ a ∈ keys, m ≤ n a → h a ≤ n a) →
      ((keys.map (fun a => if m ≤ n a then n a - h a else n a)).sum =
        (keys.map n).sum -
          ((keys.filter (fun a => decide (m ≤ n a))).map h).sum
      ∧ ((keys.filter (fun a => decide (m ≤ n a))).map h).sum ≤ (keys.map n).sum) := by
  intro keys
  induction keys with
  | nil => intro _; simp
  | cons k ks ih =>
    intro hle
    have hks := ih (fun a ha hm => hle a (List.mem_cons_of_mem _ ha) hm)
    simp only [List.map_cons, List.sum_cons, List.filter_cons]
    by_cases hk : m ≤ n k
    · have hhk : h k ≤ n k := hle k (List.mem_cons_self _ _) hk
      simp only [hk, decide_true_eq_true, if_pos, ite_true, List.map_cons, List.sum_cons]
      omega
    · simp only [hk, decide_eq_true_eq, if_neg, ite_false]
      omega

theorem splitLoop_filter_absent {f : ℚ} {m : Nat} {ba : List (String × List Triplet)}
    {st : MTState} {a : String} (ha : a ∉ ba.map Prod.fst)
    (htag : ∀ p ∈ ba, ∀ r ∈ p.2, r.anchor = p.1) :
    (splitLoop f m st ba).1.filter (fun t => decide (t.anchor = a)) = [] := by
  rw [List.filter_eq_nil_iff]
  intro r hr
  obtain ⟨p, hp, hrp⟩ := splitLoop_train_rows ba st r hr
  have : r.anchor = p.1 := htag p hp r hrp
  simp only [decide_eq_true_eq, this]
  intro heq
  exact ha (heq ▸ List.mem_map_of_mem Prod.fst hp)

/-! ## Claim about row conservation of the split -/

section

attribute [local irreducible] heldCount

/-- C9 (amended): for `0 < fraction ≤ 1`, `split_held_out` conserves
rows before leakage filtering: for every anchor, the training rows with
that anchor form a sub-multiset of the input rows with that anchor
(nothing fabricated, nothing duplicated); an anchor with at least
`min_anchor_triplets` rows contributes exactly
`row_count - max(1, round(row_count * fraction))` of its own rows
(the subtrahend never exceeds `row_count`, so the subtraction is exact),
an anchor with fewer rows contributes all of them; and the training
length equals the input length minus the summed held-out counts of the
qualifying anchors. -/
theorem c9_row_conservation (ts : List Triplet) (fraction : ℚ) (m seed : Nat)
    (h0 : 0 < fraction) (h1 : fraction ≤ 1) :
    (∀ a : String,
        List.Subperm
          ((split_held_out ts fraction m seed).1.filter
            (fun t => decide (t.anchor = a)))
          (ts.filter (fun t => decide (t.anchor = a)))
        ∧ ((split_held_out ts fraction m seed).1.filter
              (fun t => decide (t.anchor = a))).length =
            (if m ≤ (ts.filter (fun t => decide (t.anchor = a))).length
             then (ts.filter (fun t => decide (t.anchor = a))).length -
                  heldCount (ts.filter (fun t => decide (t.anchor = a))).length fraction
             else (ts.filter (fun t => decide (t.anchor = a))).length))
    ∧ (∀ a ∈ firstSeen (ts.map Triplet.anchor),
        heldCount (ts.filter (fun t => decide (t.anchor = a))).length fraction ≤
          (ts.filter (fun t => decide (t.anchor = a))).length)
    ∧ (split_held_out ts fraction m seed).1.length =
        ts.length -
          (((firstSeen (ts.map Triplet.anchor)).filter
              (fun a => decide (m ≤ (ts.filter
                (fun t => decide (t.anchor = a))).length))).map
            (fun a => heldCount (ts.filter
              (fun t => decide (t.anchor = a))).length fraction)).sum := by
  have hfz : fraction ≠ 0 := ne_of_gt h0
  have hcov : ∀ t ∈ ts, t.anchor ∈ firstSeen (ts.map Triplet.anchor) :=
    fun t ht => mem_firstSeen.mpr (List.mem_map_of_mem Triplet.anchor ht)
  have hkeysnodup : (firstSeen (ts.map Triplet.anchor)).Nodup := firstSeenFrom_nodup _ _
  have hpresent : ∀ a ∈ firstSeen (ts.map Triplet.anchor),
      1 ≤ (ts.filter (fun t => decide (t.anchor = a))).length := by
    intro a ha
    obtain ⟨t, ht, rfl⟩ := List.mem_map.mp (mem_firstSeen.mp ha)
    have hmem : t ∈ ts.filter (fun t2 => decide (t2.anchor = t.anchor)) :=
      List.mem_filter.mpr ⟨ht, by simp⟩
    have := List.length_pos.mpr (List.ne_nil_of_mem hmem)
    omega
  refine ⟨?_, ?_, ?_⟩
  · intro a
    simp only [split_held_out, if_neg hfz]
    by_cases hmem : a ∈ firstSeen (ts.map Triplet.anchor)
    · have hpair : (a, ts.filter (fun t => decide (t.anchor = a))) ∈ byAnchor ts :=
        List.mem_map_of_mem _ hmem
      exact splitLoop_filter_spec (byAnchor ts) _ (byAnchor_keys_nodup ts)
        (byAnchor_tag ts) _ hpair
    · have habsent : a ∉ (byAnchor ts).map Prod.fst := by
        rw [byAnchor_keys]; exact hmem
      have hA : (splitLoop fraction m (mtFromSeed seed) (byAnchor ts)).1.filter
          (fun t => decide (t.anchor = a)) = [] :=
        splitLoop_filter_absent habsent (byAnchor_tag ts)
      have hB : ts.filter (fun t => decide (t.anchor = a)) = [] := by
        rw [List.filter_eq_nil_iff]
        intro t ht
        simp only [decide_eq_true_eq]
        intro heq
        exact hmem (heq ▸ hcov t ht)
      rw [hA, hB]
      exact ⟨List.nil_subperm, by simp⟩
  · intro a ha
    exact heldCount_le h1 (hpresent a ha)
  · simp only [split_held_out, if_neg hfz]
    rw [splitLoop_total_length]
    have hmm : (byAnchor ts).map (fun p =>
        if m ≤ p.2.length then p.2.length - heldCount p.2.length fraction
        else p.2.length) =
        (firstSeen (ts.map Triplet.anchor)).map (fun a =>
          if m ≤ (ts.filter (fun t => decide (t.anchor = a))).length
          then (ts.filter (fun t => decide (t.anchor = a))).length -
               heldCount (ts.filter (fun t => decide (t.anchor = a))).length fraction
          else (ts.filter (fun t => decide (t.anchor = a))).length) := by
      unfold byAnchor
      rw [List.map_map]
      rfl
    rw [hmm]
    have hsum := sum_if_sub m
      (fun a => (ts.filter (fun t => decide (t.anchor = a))).length)
      (fun a => heldCount (ts.filter (fun t => decide (t.anchor = a))).length fraction)
      (firstSeen (ts.map Triplet.anchor))
      (fun a ha _ => heldCount_le h1 (hpresent a ha))
    simp only [] at hsum
    rw [hsum.1, length_filter_partition (firstSeen (ts.map Triplet.anchor)) ts
      hkeysnodup hcov]

end

/-- C9 counterexample: the claim quantifies over every fraction > 0, but
at fraction = 2 a qualifying single-row anchor contributes 0 training
rows while the claimed formula row_count − max(1, round(row_count ×
fraction)) evaluates to 1 − 2 = −1, so the claimed count (and hence the
claimed total) is wrong there. -/
theorem c9_counterexample :
    (split_held_out [⟨"a", "p", "n"⟩] 2 1 42).1.length = 0
    ∧ (1 : ℤ) - max 1 (pyRound ((1 : ℚ) * 2)) = -1 := by
  constructor <;> with_unfolding_all decide

/-- Witness for C9 (amended) at a concrete split. -/
theorem c9_witness :
    (0 : ℚ) < 1/2 ∧
    (split_held_out [⟨"a", "p", "n"⟩] (1/2) 1 42).1.length =
      ([⟨"a", "p", "n"⟩] : List Triplet).length -
        (((firstSeen (([⟨"a", "p", "n"⟩] : List Triplet).map Triplet.anchor)).filter
            (fun a => decide (1 ≤ (([⟨"a", "p", "n"⟩] : List Triplet).filter
              (fun t => decide (t.anchor = a))).length))).map
          (fun a => heldCount (([⟨"a", "p", "n"⟩] : List Triplet).filter
            (fun t => decide (t.anchor = a))).length (1/2))).sum :=
  ⟨by norm_num,
    (c9_row_conservation [⟨"a", "p", "n"⟩] (1/2) 1 42 (by norm_num) (by norm_num)).2.2⟩
